import Mathlib

/-!
Verification of the reservoir-sampling command line tool.

The development shallowly embeds the three Rust source files
(reservoir.rs, filesplits.rs, main.rs) into Lean:

- machine integers are modelled as Nat; the u32 counter num_adds wraps
  modulo 2 ^ 32 exactly where the Rust release-mode arithmetic wraps
  (the += 1 in add, the sum in merge, and the usize-to-u32 casts);
  u64 quantities (missing-field counters, byte offsets) are modelled as
  plain Nat because their overflow needs more than 2 ^ 64 records, which
  is not reachable in practice;
- the pseudo random generator fastrand::Rng is modelled as an oracle:
  an infinite stream of raw natural numbers together with a cursor; a
  ranged integer draw u32(0..n) takes the next raw value modulo n, and a
  float draw f32() takes the next raw value modulo 2 ^ 24 divided by
  2 ^ 24, giving a rational in [0, 1).  Theorems quantify over the
  oracle, so they hold for every sequence of random draws;
- f32 arithmetic (thresholds, frequencies) is modelled exactly in the
  rationals; the float rounding of count / effective_size is monotone,
  so order comparisons used by the top-k sort agree with the rational
  order, and f32.to_bits is order-isomorphic to the float order on the
  non-negative frequencies that occur;
- HashMap values are modelled as association lists keyed by the distinct
  pooled values; iteration order of the map is immaterial downstream
  because the top-k sort key (frequency, value) is total and injective
  on the entries.
-/

/-- One raw pseudo random stream with a cursor, modelling fastrand::Rng. -/
structure Rng where
  seq : Nat → Nat
  pos : Nat

/-- Ranged draw, modelling Rng::u32(0..n): next raw value reduced into
the range.  fastrand panics when the range is empty (n = 0); that state
is never reached in any theorem below. -/
def rngU32 (g : Rng) (n : Nat) : Nat × Rng :=
  (g.seq g.pos % n, { g with pos := g.pos + 1 })

/-- Float draw, modelling Rng::f32(): a rational in [0, 1) with 24 bits
of resolution, matching the mantissa width of f32. -/
def rngF32 (g : Rng) : ℚ × Rng :=
  (((g.seq g.pos % 2 ^ 24 : Nat) : ℚ) / 2 ^ 24, { g with pos := g.pos + 1 })

/-- The u32 modulus. -/
def U32 : Nat := 2 ^ 32

/-- The struct Reservoir of reservoir.rs.  num_adds is the u32 field,
kept below 2 ^ 32 by construction. -/
structure Reservoir (T : Type) where
  capacity : Nat
  pool : List T
  pool_full : Bool
  rng : Rng
  num_adds : Nat

/-- Reservoir::new.  The Rng the constructor creates is the oracle g. -/
def Reservoir.new {T : Type} (capacity : Nat) (g : Rng) : Reservoir T :=
  { capacity := capacity
    pool := []
    pool_full := false
    rng := g
    num_adds := 0 }

/-- Reservoir::add, translated line by line: increment num_adds (u32,
wrapping); if the pool is not marked full, push the item and mark the
pool full exactly when its length has become equal to the capacity;
otherwise draw j uniformly in [0, num_adds) and overwrite pool[j] when
j is below the capacity (cast to u32), else discard the item. -/
def Reservoir.add {T : Type} (r : Reservoir T) (item : T) : Reservoir T :=
  let n := (r.num_adds + 1) % U32
  if r.pool_full = false then
    let pool := r.pool ++ [item]
    { r with pool := pool, pool_full := pool.length == r.capacity, num_adds := n }
  else
    let d := rngU32 r.rng n
    if d.1 < r.capacity % U32 then
      { r with pool := r.pool.set d.1 item, rng := d.2, num_adds := n }
    else
      { r with rng := d.2, num_adds := n }

/-- A sequence of add calls, left to right. -/
def Reservoir.addList {T : Type} (r : Reservoir T) (items : List T) : Reservoir T :=
  items.foldl Reservoir.add r

/-- One loop iteration of Reservoir::merge: a float draw decides
admission against the threshold; an admitted item is pushed while the
output pool is below pool_capacity, and otherwise overwrites the slot
given by a uniform draw in [0, pool_capacity) (cast to u32). -/
def mergeStep {T : Type} (pool_capacity : Nat) (threshold : ℚ)
    (st : List T × Rng) (item : T) : List T × Rng :=
  let d := rngF32 st.2
  if d.1 < threshold then
    if st.1.length < pool_capacity then
      (st.1 ++ [item], d.2)
    else
      let e := rngU32 d.2 (pool_capacity % U32)
      (st.1.set e.1 item, e.2)
  else
    (st.1, d.2)

/-- Reservoir::merge.  The thresholds divide each input count by the
u32 (wrapping) sum of both counts; the Rng the function creates is the
oracle g0.  Inputs are taken by shared reference in the source and are
never mutated; the embedding is pure, so this is inherent here. -/
def Reservoir.merge {T : Type} (r1 r2 : Reservoir T) (g0 : Rng) : Reservoir T :=
  let total := (r1.num_adds + r2.num_adds) % U32
  let r1_threshold : ℚ := (r1.num_adds : ℚ) / (total : ℚ)
  let r2_threshold : ℚ := (r2.num_adds : ℚ) / (total : ℚ)
  let pool_capacity := max r1.capacity r2.capacity
  let st1 := r1.pool.foldl (mergeStep pool_capacity r1_threshold) ([], g0)
  let st2 := r2.pool.foldl (mergeStep pool_capacity r2_threshold) st1
  { capacity := pool_capacity
    pool := st2.1
    pool_full := st2.1.length == pool_capacity
    rng := st2.2
    num_adds := (r1.num_adds + r2.num_adds) % U32 }

/-- Reservoir::to_histogram.  The occurrence counts per distinct pooled
value are modelled as the association list over the deduplicated pool;
effective_size is min(pool.len() as u32, num_adds), and each count is
divided by it in the rationals (f32 in the source). -/
def Reservoir.to_histogram {T : Type} [DecidableEq T] (r : Reservoir T) : List (T × ℚ) :=
  if r.capacity = 0 then []
  else
    let effective_size : ℚ := ((min (r.pool.length % U32) r.num_adds : Nat) : ℚ)
    r.pool.dedup.map (fun v => (v, ((r.pool.count v : Nat) : ℚ) / effective_size))

/-- Byte-lexicographic order on character lists, modelling the Ord
instance Rust uses for String comparison (UTF-8 bytes compare in the
same order as code points, which compare as Char here). -/
def charListLe : List Char → List Char → Bool
  | [], _ => true
  | _ :: _, [] => false
  | a :: as, b :: bs => if a < b then true else if b < a then false else charListLe as bs

/-- The ascending sort key order of histogram_top_k in main.rs: pairs
(frequency, value) compared lexicographically, mirroring the key
(freq.to_bits(), val.clone()) of sort_by_cached_key (to_bits is
order-isomorphic to the f32 order on the non-negative frequencies). -/
def leKey (a b : ℚ × String) : Prop :=
  a.1 < b.1 ∨ (a.1 = b.1 ∧ charListLe a.2.data b.2.data = true)

instance : DecidableRel leKey := fun a b =>
  inferInstanceAs (Decidable (a.1 < b.1 ∨ (a.1 = b.1 ∧ charListLe a.2.data b.2.data = true)))

/-- histogram_top_k of main.rs: swap the histogram entries into
(frequency, value) pairs, stable-sort ascending by the key order leKey
(sort_by_cached_key is a stable sort, and the key is total and
injective on the distinct entries, so any stable sort gives the same
list), reverse, slice the first min(k, length) entries, and read them
back as (value, frequency) pairs, modelling the ValueFrequency list. -/
def histogram_top_k (r : Reservoir String) (k : Nat) : List (String × ℚ) :=
  let histogram := r.to_histogram
  let vals := histogram.map (fun p => (p.2, p.1))
  let sorted := (vals.insertionSort leKey).reverse
  (sorted.take (min k sorted.length)).map (fun p => (p.2, p.1))

/-- Modelled from the spec of claim C3 (not from the source): one merge
insertion following the words of the claim, namely the same
capacity-bounded rule as add, with a running admitted count local to
the merge pass: an admitted item bumps the count; it is appended while
the pool is below capacity, and otherwise kept only when a uniform draw
j in [0, admitted_count) satisfies j < capacity, overwriting pool[j],
discarding the item otherwise.  The state is (pool, rng, admitted). -/
def mergeSpecStep {T : Type} (pool_capacity : Nat) (threshold : ℚ)
    (st : List T × Rng × Nat) (item : T) : List T × Rng × Nat :=
  let d := rngF32 st.2.1
  if d.1 < threshold then
    let admitted := st.2.2 + 1
    if st.1.length < pool_capacity then
      (st.1 ++ [item], d.2, admitted)
    else
      let e := rngU32 d.2 admitted
      if e.1 < pool_capacity then
        (st.1.set e.1 item, e.2, admitted)
      else
        (st.1, e.2, admitted)
  else
    (st.1, d.2, st.2.2)

/-- Modelled from the spec of claim C3 (not from the source): merge as
the claim describes it, identical to Reservoir.merge except that the
insertion of admitted items follows mergeSpecStep. -/
def mergeSpecModel {T : Type} (r1 r2 : Reservoir T) (g0 : Rng) : Reservoir T :=
  let total := (r1.num_adds + r2.num_adds) % U32
  let r1_threshold : ℚ := (r1.num_adds : ℚ) / (total : ℚ)
  let r2_threshold : ℚ := (r2.num_adds : ℚ) / (total : ℚ)
  let pool_capacity := max r1.capacity r2.capacity
  let st1 := r1.pool.foldl (mergeSpecStep pool_capacity r1_threshold) ([], g0, 0)
  let st2 := r2.pool.foldl (mergeSpecStep pool_capacity r2_threshold) st1
  { capacity := pool_capacity
    pool := st2.1
    pool_full := st2.1.length == pool_capacity
    rng := st2.2.1
    num_adds := (r1.num_adds + r2.num_adds) % U32 }

/-- The insertion rule the merge loop of reservoir.rs actually uses,
written out from the amended wording of claim C3: append while the
output pool is below capacity; once it is full, draw a uniform index in
[0, capacity) (capacity cast to u32) and overwrite that slot — an
admitted item is always retained. -/
def insertAmended {T : Type} (pool_capacity : Nat)
    (st : List T × Rng) (item : T) : List T × Rng :=
  if st.1.length < pool_capacity then
    (st.1 ++ [item], st.2)
  else
    let e := rngU32 st.2 (pool_capacity % U32)
    (st.1.set e.1 item, e.2)

/-- Merge as described by the amended claim C3: per item one float draw
decides admission against the threshold, and admitted items are
inserted by insertAmended. -/
def mergeAmendedModel {T : Type} (r1 r2 : Reservoir T) (g0 : Rng) : Reservoir T :=
  let total := (r1.num_adds + r2.num_adds) % U32
  let r1_threshold : ℚ := (r1.num_adds : ℚ) / (total : ℚ)
  let r2_threshold : ℚ := (r2.num_adds : ℚ) / (total : ℚ)
  let pool_capacity := max r1.capacity r2.capacity
  let step := fun (threshold : ℚ) (st : List T × Rng) (item : T) =>
    let d := rngF32 st.2
    if d.1 < threshold then insertAmended pool_capacity (st.1, d.2) item
    else (st.1, d.2)
  let st1 := r1.pool.foldl (step r1_threshold) ([], g0)
  let st2 := r2.pool.foldl (step r2_threshold) st1
  { capacity := pool_capacity
    pool := st2.1
    pool_full := st2.1.length == pool_capacity
    rng := st2.2
    num_adds := (r1.num_adds + r2.num_adds) % U32 }

/-- The position a BufRead::read_line call started at byte position pos
of the content ends at: just past the next newline byte (10), or the
end of the content when no newline remains.  Invalid UTF-8 content
would make read_line fail in the source; that error path is orthogonal
to the byte geometry modelled here. -/
def lineEnd (content : List Nat) (pos : Nat) : Nat :=
  min (pos + ((content.drop pos).takeWhile (fun b => b != 10)).length + 1) content.length

/-- The loop of get_splits in filesplits.rs, with an explicit fuel
argument bounding the iteration count (the loop advances at least one
byte per iteration, so content.length + 1 units of fuel always
suffice; this is proved below).  Each iteration seeks split_size bytes
forward, clamps to the end, emits the final range and stops when the
clamp hit the end, and otherwise consumes the rest of the current line
and emits a range ending there. -/
def splitsLoop (content : List Nat) (split_size : Nat) : Nat → Nat → List (Nat × Nat)
  | 0, _ => []
  | fuel + 1, split_start_pos =>
    let end_pos := content.length
    let split_end_pos := min (split_start_pos + split_size) end_pos
    if split_end_pos = end_pos then
      [(split_start_pos, end_pos)]
    else
      let next := lineEnd content split_end_pos
      (split_start_pos, next) :: splitsLoop content split_size fuel next

/-- get_splits of filesplits.rs over a byte-list source.  The source
passes split_size as u64 through the cast split_size as i64 into a
relative seek: for split_size at least 2 ^ 63 the cast is negative, the
very first relative seek from position 0 targets a negative position,
and the io error propagates out of get_splits; this is the none case.
Otherwise the loop runs to completion. -/
def get_splits (content : List Nat) (split_size : Nat) : Option (List (Nat × Nat)) :=
  if split_size < 2 ^ 63 then
    some (splitsLoop content split_size (content.length + 1) 0)
  else
    none

/-- The ranges rs, read in order, tile the interval [start, L): each
range begins where the previous one ended, never runs backwards, and
the last one ends at L.  An empty list tiles only the empty interval at
its own start. -/
def tilesFrom (L : Nat) : List (Nat × Nat) → Nat → Prop
  | [], start => start = L
  | (a, b) :: rest, start => a = start ∧ a ≤ b ∧ tilesFrom L rest b

/-- The ranges are ordered, contiguous, half-open, and exactly
partition [0, L): no gaps, no overlaps, nothing outside [0, L). -/
def tiles (rs : List (Nat × Nat)) (L : Nat) : Prop :=
  rs ≠ [] ∧ tilesFrom L rs 0

/-- An all-zero oracle. -/
def rng0 : Rng := { seq := fun _ => 0, pos := 0 }

/-- The per-field state of process_reader in main.rs. -/
structure SampledFields where
  reservoirs : List (Reservoir String)
  missing_field_counts : List Nat

/-- The loop guard read_limit.is_some() and read_count > read_limit of
process_reader. -/
def exceeds (read_limit : Option Nat) (read_count : Nat) : Bool :=
  match read_limit with
  | some l => read_count > l
  | none => false

/-- The no-fields loop of process_reader: per record, add its byte
length (the line terminator is already stripped by lines()) to the
running count, break out of the whole loop as soon as the count
exceeds the limit — discarding that record and all later ones — and
otherwise add the record to the single reservoir. -/
def procNoFields (read_limit : Option Nat) :
    List String → Nat → Reservoir String → Reservoir String
  | [], _, r => r
  | record :: rest, read_count, r =>
    let rc := read_count + record.utf8ByteSize
    if exceeds read_limit rc then r
    else procNoFields read_limit rest rc (r.add record)

/-- One step of the inner field loop of process_reader: the pair p is
(reservoir_index, field_index); a record with too few fields bumps that
missing counter, otherwise the field text goes into that reservoir.
The getD defaults are irrelevant: the source indexes vectors whose
length equals the number of tracked fields. -/
def stepOne (vals : List String) (st : List (Reservoir String) × List Nat)
    (p : Nat × Nat) : List (Reservoir String) × List Nat :=
  if vals.length ≤ p.2 then
    (st.1, st.2.set p.1 (st.2.getD p.1 0 + 1))
  else
    (st.1.set p.1 ((st.1.getD p.1 (Reservoir.new 0 rng0)).add (vals.getD p.2 "")), st.2)

/-- The inner for loop over args.fields.iter().enumerate() applied to
the field values of one record. -/
def stepFields (fields : List Nat) (vals : List String)
    (st : List (Reservoir String) × List Nat) : List (Reservoir String) × List Nat :=
  (fields.enum).foldl (stepOne vals) st

/-- The fields-mode loop of process_reader: same limit handling as the
no-fields loop, then the inner field loop on the split record. -/
def procFields (read_limit : Option Nat) (fields : List Nat)
    (splitF : String → List String) :
    List String → Nat → List (Reservoir String) × List Nat →
      List (Reservoir String) × List Nat
  | [], _, st => st
  | record :: rest, read_count, st =>
    let rc := read_count + record.utf8ByteSize
    if exceeds read_limit rc then st
    else procFields read_limit fields splitF rest rc (stepFields fields (splitF record) st)

/-- process_reader of main.rs over the list of records the reader
yields (each record is a line with its terminator already stripped, as
BufRead::lines does).  splitF abstracts the two field-splitting
policies of the source (split_whitespace, or split on the literal
separator); gs supplies the fresh Rng each Reservoir::new call makes.
The missing counters are u64 in the source, modelled as Nat. -/
def process_reader (records : List String) (read_limit : Option Nat)
    (sample_size : Nat) (fields : List Nat) (splitF : String → List String)
    (gs : Nat → Rng) : SampledFields :=
  if fields.length = 0 then
    { reservoirs := [procNoFields read_limit records 0 (Reservoir.new sample_size (gs 0))]
      missing_field_counts := [0] }
  else
    let st := procFields read_limit fields splitF records 0
      ((List.range fields.length).map (fun i => Reservoir.new sample_size (gs i)),
       List.replicate fields.length 0)
    { reservoirs := st.1
      missing_field_counts := st.2 }

/-- The prefix of the records a limited process_reader run actually
processes: records are kept while the running byte count stays within
the limit, and the first record pushing the count past the limit cuts
off everything from itself on. -/
def limitClip (read_limit : Nat) : Nat → List String → List String
  | _, [] => []
  | read_count, record :: rest =>
    let rc := read_count + record.utf8ByteSize
    if rc > read_limit then [] else record :: limitClip read_limit rc rest

/-- The reservoirs over String reachable through the public operations
of reservoir.rs: new, add, and merge (each with an arbitrary random
oracle). -/
inductive Reachable : Reservoir String → Prop
  | new (capacity : Nat) (g : Rng) : Reachable (Reservoir.new capacity g)
  | add (r : Reservoir String) (item : String) :
      Reachable r → Reachable (r.add item)
  | merge (r1 r2 : Reservoir String) (g : Rng) :
      Reachable r1 → Reachable r2 → Reachable (Reservoir.merge r1 r2 g)

/-- An oracle whose float draws all equal one half, so that a merge
with thresholds of one half admits nothing. -/
def rngHalf : Rng := { seq := fun _ => 2 ^ 23, pos := 0 }

/-- An oracle for the claim C3 counterexample: the third raw draw (the
ranged draw of the second admitted item) is odd, all others zero. -/
def rngC3 : Rng := { seq := fun n => if n = 2 then 1 else 0, pos := 0 }

/-- A capacity-1 reservoir holding one item, built by the public
operations. -/
def rA : Reservoir String := (Reservoir.new 1 rng0).add "a"

/-- A second capacity-1 reservoir holding one item. -/
def rB : Reservoir String := (Reservoir.new 1 rng0).add "b"

/-- The end-to-end example reservoir of the spec: capacity 10, the five
records a, b, a, c, a added in order (all below capacity, so the pool
is exactly these values). -/
def rEx : Reservoir String :=
  (Reservoir.new 10 rng0).addList ["a", "b", "a", "c", "a"]

/-- A Reservoir value whose pool is longer than its num_adds count,
exercising the effective_size branch of to_histogram in which the
frequencies do not sum to one. -/
def rOver : Reservoir String :=
  { capacity := 1, pool := ["a", "b"], pool_full := true, rng := rng0, num_adds := 1 }

/-- A Reservoir value carrying the largest num_adds count reachable by
2 ^ 31 add calls, used to exhibit the u32 wrap-around in merge. -/
def rBig : Reservoir String :=
  { capacity := 1, pool := [], pool_full := false, rng := rng0, num_adds := 2 ^ 31 }

/-- Junk default value used only to state getD lookups whose index is
in bounds. -/
def dR : Reservoir String := Reservoir.new 0 rng0

lemma U32_pos : 0 < U32 := by decide

lemma Reservoir.addList_cons {T : Type} (r : Reservoir T) (x : T) (xs : List T) :
    r.addList (x :: xs) = (r.add x).addList xs := rfl

/-- While the push branch of add never reaches the capacity, a run of
add calls appends the items, leaves the pool unmarked full, never
consults the random oracle, and counts every add (u32, wrapping). -/
lemma addList_push {T : Type} (items : List T) : ∀ (r : Reservoir T),
    r.pool_full = false → r.num_adds < U32 →
    (∀ k, k < items.length → r.pool.length + k + 1 ≠ r.capacity) →
    (r.addList items).pool = r.pool ++ items ∧
    (r.addList items).pool_full = false ∧
    (r.addList items).rng = r.rng ∧
    (r.addList items).capacity = r.capacity ∧
    (r.addList items).num_adds = (r.num_adds + items.length) % U32 := by
  induction items with
  | nil =>
    intro r hf hn _
    simp [Reservoir.addList, hf, Nat.mod_eq_of_lt hn]
  | cons x xs ih =>
    intro r hf hn hc
    obtain ⟨cap, pool, full, g, n⟩ := r
    simp only at hf hn hc
    subst hf
    have h1 : pool.length + 1 ≠ cap := by
      have h0 := hc 0 (by simp)
      omega
    have hadd : Reservoir.add ⟨cap, pool, false, g, n⟩ x
        = ⟨cap, pool ++ [x], false, g, (n + 1) % U32⟩ := by
      simp [Reservoir.add, beq_eq_false_iff_ne, h1]
    obtain ⟨hp, hfl, hg, hcp, hnm⟩ := ih ⟨cap, pool ++ [x], false, g, (n + 1) % U32⟩ rfl
      (Nat.mod_lt _ U32_pos)
      (by
        intro k hk
        have h2 := hc (k + 1) (by simpa using Nat.succ_lt_succ hk)
        simp only [List.length_append, List.length_cons, List.length_nil]
        omega)
    rw [Reservoir.addList_cons, hadd]
    refine ⟨?_, hfl, hg, hcp, ?_⟩
    · rw [hp]
      simp
    · rw [hnm]
      simp only [Nat.mod_add_mod, List.length_cons]
      congr 1
      omega

/-- C8: for a reservoir of capacity C and any strictly shorter list of
sequential adds, no randomness is consulted (the oracle cursor is
untouched and the result does not depend on it): the pool afterwards is
exactly the added values in insertion order, and the pool is not
marked full. -/
theorem c8_below_capacity_deterministic (c : Nat) (g : Rng) (items : List String)
    (h : items.length < c) :
    ((Reservoir.new c g : Reservoir String).addList items).pool = items ∧
    ((Reservoir.new c g : Reservoir String).addList items).rng = g ∧
    ((Reservoir.new c g : Reservoir String).addList items).pool_full = false := by
  obtain ⟨hp, hf, hg, _, _⟩ := addList_push items (Reservoir.new c g) rfl U32_pos
    (by
      intro k hk
      show 0 + k + 1 ≠ c
      omega)
  refine ⟨?_, hg, hf⟩
  simpa using hp

/-- Witness for C8 at capacity 3 and two adds. -/
theorem c8_witness :
    (["a", "b"] : List String).length < 3 ∧
    ((Reservoir.new 3 rng0 : Reservoir String).addList ["a", "b"]).pool = ["a", "b"] :=
  ⟨by decide, (c8_below_capacity_deterministic 3 rng0 ["a", "b"] (by decide)).1⟩

/-- C9: a capacity-0 reservoir never marks its pool full, every add
appends, the pool length equals the number of adds (unbounded growth),
and to_histogram still returns the empty mapping. -/
theorem c9_zero_capacity_grows (g : Rng) (items : List String) :
    ((Reservoir.new 0 g : Reservoir String).addList items).pool = items ∧
    ((Reservoir.new 0 g : Reservoir String).addList items).pool_full = false ∧
    ((Reservoir.new 0 g : Reservoir String).addList items).pool.length = items.length ∧
    ((Reservoir.new 0 g : Reservoir String).addList items).to_histogram = [] := by
  obtain ⟨hp, hf, _, hcp, _⟩ := addList_push items (Reservoir.new 0 g) rfl U32_pos
    (by
      intro k hk
      show 0 + k + 1 ≠ 0
      omega)
  have hp2 : ((Reservoir.new 0 g : Reservoir String).addList items).pool = items := by
    simpa using hp
  refine ⟨hp2, hf, by rw [hp2], ?_⟩
  rw [Reservoir.to_histogram, if_pos]
  exact hcp

/-- C4 (amended): merge returns capacity max(r1.capacity, r2.capacity)
exactly, and num_seen equal to (r1.num_seen + r2.num_seen) mod 2 ^ 32
(u32 addition), which is the exact sum whenever that sum is below
2 ^ 32; the inputs are taken by shared reference and the embedding is
pure, so they are not mutated. -/
theorem c4_merge_capacity_num_seen {T : Type} (r1 r2 : Reservoir T) (g : Rng) :
    (Reservoir.merge r1 r2 g).capacity = max r1.capacity r2.capacity ∧
    (Reservoir.merge r1 r2 g).num_adds = (r1.num_adds + r2.num_adds) % U32 ∧
    (r1.num_adds + r2.num_adds < U32 →
      (Reservoir.merge r1 r2 g).num_adds = r1.num_adds + r2.num_adds) := by
  refine ⟨rfl, rfl, fun h => ?_⟩
  show (r1.num_adds + r2.num_adds) % U32 = _
  exact Nat.mod_eq_of_lt h

/-- Witness for C4 on two small reservoirs. -/
theorem c4_witness :
    rA.num_adds + rB.num_adds < U32 ∧
    (Reservoir.merge rA rB rngHalf).num_adds = rA.num_adds + rB.num_adds :=
  ⟨by decide, (c4_merge_capacity_num_seen rA rB rngHalf).2.2 (by decide)⟩

/-- Counterexample to C4 as stated: two reservoirs with num_seen at
2 ^ 31 each (reachable by 2 ^ 31 adds); their merged num_seen wraps to
0 instead of the exact sum 2 ^ 32. -/
theorem c4_counterexample :
    (Reservoir.merge rBig rBig rng0).num_adds = 0 ∧
    rBig.num_adds + rBig.num_adds = 2 ^ 32 ∧
    (Reservoir.merge rBig rBig rng0).num_adds ≠ rBig.num_adds + rBig.num_adds := by
  refine ⟨by decide, by decide, by decide⟩

/-- The merge loop never grows the output pool past the output
capacity: items are pushed only while there is room, and otherwise
overwrite an existing slot. -/
lemma foldl_mergeStep_length_le {T : Type} (cap : Nat) (t : ℚ) (items : List T) :
    ∀ (st : List T × Rng), st.1.length ≤ cap →
      (items.foldl (mergeStep cap t) st).1.length ≤ cap := by
  induction items with
  | nil => intro st h; exact h
  | cons x xs ih =>
    intro st h
    rw [List.foldl_cons]
    apply ih
    simp only [mergeStep]
    split_ifs with h1 h2
    · simp only [List.length_append, List.length_cons, List.length_nil]
      omega
    · simpa using h
    · exact h

/-- The pool of a merged reservoir is never longer than its capacity. -/
lemma merge_pool_length_le {T : Type} (r1 r2 : Reservoir T) (g : Rng) :
    (Reservoir.merge r1 r2 g).pool.length ≤ (Reservoir.merge r1 r2 g).capacity := by
  have h0 : (([] : List T), g).1.length ≤ max r1.capacity r2.capacity := by simp
  have h1 := foldl_mergeStep_length_le (max r1.capacity r2.capacity)
    ((r1.num_adds : ℚ) / (((r1.num_adds + r2.num_adds) % U32 : Nat) : ℚ)) r1.pool _ h0
  have h2 := foldl_mergeStep_length_le (max r1.capacity r2.capacity)
    ((r2.num_adds : ℚ) / (((r1.num_adds + r2.num_adds) % U32 : Nat) : ℚ)) r2.pool _ h1
  exact h2

/-- The reservoir invariant under a run of adds, for capacity at least
one and an overall add count below 2 ^ 32: the pool length tracks
min(num_seen, capacity) and the full flag tracks capacity ≤ num_seen. -/
lemma addList_inv {T : Type} (items : List T) : ∀ (r : Reservoir T) (n : Nat),
    1 ≤ r.capacity → r.num_adds = n → n + items.length < U32 →
    r.pool.length = min n r.capacity → r.pool_full = decide (r.capacity ≤ n) →
    ((r.addList items).pool.length = min (n + items.length) (r.addList items).capacity ∧
     (r.addList items).num_adds = n + items.length ∧
     (r.addList items).capacity = r.capacity ∧
     (r.addList items).pool_full = decide (r.capacity ≤ n + items.length)) := by
  induction items with
  | nil =>
    intro r n hcap hn hlt hlen hfull
    refine ⟨?_, by simpa using hn, rfl, by simpa using hfull⟩
    have : (r.addList []).capacity = r.capacity := rfl
    rw [this]
    simpa using hlen
  | cons x xs ih =>
    intro r n hcap hn hlt hlen hfull
    obtain ⟨cap, pool, full, g, n0⟩ := r
    simp only at hcap hn hlt hlen hfull
    subst hn
    rw [Reservoir.addList_cons]
    have hlen2 : n0 + (x :: xs).length = n0 + 1 + xs.length := by
      simp only [List.length_cons]
      omega
    have hadds : (n0 + 1) % U32 = n0 + 1 := by
      apply Nat.mod_eq_of_lt
      simp only [List.length_cons] at hlt
      omega
    by_cases hc : cap ≤ n0
    · -- the pool is already full: the add overwrites a slot or discards
      have hfull' : full = true := by simp [hfull, hc]
      subst hfull'
      have hlen' : pool.length = cap := by
        rw [hlen]
        omega
      have hadd : Reservoir.add ⟨cap, pool, true, g, n0⟩ x
          = ⟨cap,
             if (rngU32 g (n0 + 1)).1 < cap % U32 then pool.set (rngU32 g (n0 + 1)).1 x
             else pool,
             true, (rngU32 g (n0 + 1)).2, n0 + 1⟩ := by
        simp only [Reservoir.add, hadds]
        split_ifs <;> simp_all
      rw [hadd]
      obtain ⟨k1, k2, k3, k4⟩ := ih
        ⟨cap,
         if (rngU32 g (n0 + 1)).1 < cap % U32 then pool.set (rngU32 g (n0 + 1)).1 x
         else pool,
         true, (rngU32 g (n0 + 1)).2, n0 + 1⟩ (n0 + 1) hcap rfl
        (by simp only [List.length_cons] at hlt; omega)
        (by
          simp only
          split_ifs with hj
          · rw [List.length_set, hlen']
            omega
          · rw [hlen']
            omega)
        (by
          simp only
          symm
          simp only [decide_eq_true_eq]
          omega)
      refine ⟨?_, ?_, ?_, ?_⟩
      · rw [hlen2]
        exact k1
      · rw [hlen2]
        exact k2
      · rw [k3]
      · rw [hlen2]
        exact k4
    · -- below capacity: the add appends
      have hfull' : full = false := by simp [hfull, hc]
      subst hfull'
      have hlen' : pool.length = n0 := by
        rw [hlen]
        omega
      have hbool : ((pool ++ [x]).length == cap) = decide (cap ≤ n0 + 1) := by
        simp only [List.length_append, List.length_cons, List.length_nil, hlen']
        by_cases h : n0 + 1 = cap
        · subst h
          simp
        · have h2 : ¬(cap ≤ n0 + 1) := by omega
          simp [h, h2]
      have hadd : Reservoir.add ⟨cap, pool, false, g, n0⟩ x
          = ⟨cap, pool ++ [x], decide (cap ≤ n0 + 1), g, n0 + 1⟩ := by
        simp only [Reservoir.add, hadds]
        rw [hbool]
        simp
      rw [hadd]
      obtain ⟨k1, k2, k3, k4⟩ := ih ⟨cap, pool ++ [x], decide (cap ≤ n0 + 1), g, n0 + 1⟩
        (n0 + 1) hcap rfl
        (by simp only [List.length_cons] at hlt; omega)
        (by
          simp only [List.length_append, List.length_cons, List.length_nil, hlen']
          omega)
        rfl
      refine ⟨?_, ?_, ?_, ?_⟩
      · rw [hlen2]
        exact k1
      · rw [hlen2]
        exact k2
      · rw [k3]
      · rw [hlen2]
        exact k4

/-- A run of add calls on a reachable reservoir stays reachable. -/
lemma reach_addList (items : List String) : ∀ (r : Reservoir String),
    Reachable r → Reachable (r.addList items) := by
  induction items with
  | nil => intro r h; exact h
  | cons x xs ih =>
    intro r h
    rw [Reservoir.addList_cons]
    exact ih _ (Reachable.add r x h)

/-- C1 (amended): for capacity at least 1, a reservoir built by new and
fewer than 2 ^ 32 add calls has pool length exactly
min(num_seen, capacity); a reservoir produced by merge satisfies only
the bound pool length ≤ capacity (the admission draws can leave it
short); for capacity 0, add appends unconditionally and the pool length
equals the number of adds. -/
theorem c1_pool_length_amended :
    (∀ (c : Nat) (g : Rng) (items : List String), 1 ≤ c → items.length < U32 →
      ((Reservoir.new c g : Reservoir String).addList items).pool.length
        = min ((Reservoir.new c g : Reservoir String).addList items).num_adds
            ((Reservoir.new c g : Reservoir String).addList items).capacity) ∧
    (∀ (r1 r2 : Reservoir String) (g : Rng),
      (Reservoir.merge r1 r2 g).pool.length ≤ (Reservoir.merge r1 r2 g).capacity) ∧
    (∀ (g : Rng) (items : List String),
      ((Reservoir.new 0 g : Reservoir String).addList items).pool.length
        = items.length) := by
  refine ⟨?_, ?_, ?_⟩
  · intro c g items hc hlen
    obtain ⟨k1, k2, _, _⟩ := addList_inv items (Reservoir.new c g) 0 hc rfl
      (by simpa using hlen) (by simp [Reservoir.new])
      (by
        show false = decide (c ≤ 0)
        symm
        simp only [decide_eq_false_iff_not]
        omega)
    rw [k1, k2]
  · intro r1 r2 g
    exact merge_pool_length_le r1 r2 g
  · intro g items
    obtain ⟨hp, _, _, _, _⟩ := addList_push items (Reservoir.new 0 g) rfl U32_pos
      (by
        intro k hk
        show 0 + k + 1 ≠ 0
        omega)
    rw [hp]
    simp [Reservoir.new]

/-- Witness for C1 at capacity 2 and three adds. -/
theorem c1_witness :
    1 ≤ 2 ∧ (["a", "b", "c"] : List String).length < U32 ∧
    ((Reservoir.new 2 rng0 : Reservoir String).addList ["a", "b", "c"]).pool.length
      = min ((Reservoir.new 2 rng0 : Reservoir String).addList ["a", "b", "c"]).num_adds
          ((Reservoir.new 2 rng0 : Reservoir String).addList ["a", "b", "c"]).capacity :=
  ⟨by decide, by decide,
   c1_pool_length_amended.1 2 rng0 ["a", "b", "c"] (by decide) (by decide)⟩

/-- Counterexample to C1 as stated: three reservoirs reachable through
the public operations whose pool length differs from
min(num_seen, capacity).  First, one add into a capacity-0 reservoir
(the pool grows past the capacity).  Second, a merge both of whose
admission draws fail (the pool falls short of min(num_seen, capacity)).
Third, 2 ^ 32 adds below a larger capacity (num_seen wraps to 0 while
the pool keeps all items). -/
theorem c1_counterexample :
    (Reachable ((Reservoir.new 0 rng0 : Reservoir String).add "a") ∧
     ((Reservoir.new 0 rng0 : Reservoir String).add "a").pool.length
       ≠ min ((Reservoir.new 0 rng0 : Reservoir String).add "a").num_adds
           ((Reservoir.new 0 rng0 : Reservoir String).add "a").capacity) ∧
    (Reachable (Reservoir.merge rA rB rngHalf) ∧
     (Reservoir.merge rA rB rngHalf).pool.length
       ≠ min (Reservoir.merge rA rB rngHalf).num_adds
           (Reservoir.merge rA rB rngHalf).capacity) ∧
    (Reachable ((Reservoir.new (U32 + 1) rng0 : Reservoir String).addList
        (List.replicate U32 "a")) ∧
     ((Reservoir.new (U32 + 1) rng0 : Reservoir String).addList
        (List.replicate U32 "a")).pool.length
       ≠ min ((Reservoir.new (U32 + 1) rng0 : Reservoir String).addList
            (List.replicate U32 "a")).num_adds
           ((Reservoir.new (U32 + 1) rng0 : Reservoir String).addList
            (List.replicate U32 "a")).capacity) := by
  refine ⟨⟨Reachable.add _ "a" (Reachable.new 0 rng0), by decide⟩,
          ⟨Reachable.merge _ _ rngHalf
            (Reachable.add _ "a" (Reachable.new 1 rng0))
            (Reachable.add _ "b" (Reachable.new 1 rng0)), ?_⟩,
          ⟨reach_addList _ _ (Reachable.new (U32 + 1) rng0), ?_⟩⟩
  · norm_num [Reservoir.merge, mergeStep, rngF32, rngU32, rA, rB, rngHalf, rng0,
      Reservoir.add, Reservoir.new, U32]
  · obtain ⟨hp, _, _, hcp, hnm⟩ := addList_push (List.replicate U32 "a")
      (Reservoir.new (U32 + 1) rng0) rfl U32_pos
      (by
        intro k hk
        simp only [List.length_replicate] at hk
        show 0 + k + 1 ≠ U32 + 1
        omega)
    rw [hp, hnm, hcp]
    simp [Reservoir.new, Nat.mod_self, U32_pos.ne']

/-- C3 (amended): the merge loop of reservoir.rs inserts every admitted
item by the rule of insertAmended: append while the output pool is
below capacity, and once it is full overwrite the slot given by a
uniform draw in [0, capacity) — the admitted item is always retained,
and no running admitted count exists. -/
theorem c3_merge_insertion_amended {T : Type} (r1 r2 : Reservoir T) (g0 : Rng) :
    Reservoir.merge r1 r2 g0 = mergeAmendedModel r1 r2 g0 := rfl

/-- Counterexample to C3 as stated: two one-item capacity-1 reservoirs
and an oracle whose third raw draw is odd.  The rule of the claim
(draw j in [0, admitted_count) and discard when j is not below the
capacity) discards the second admitted item, keeping pool [a]; the
source always overwrites, producing pool [b]. -/
theorem c3_counterexample :
    (Reservoir.merge rA rB rngC3).pool = ["b"] ∧
    (mergeSpecModel rA rB rngC3).pool = ["a"] ∧
    (Reservoir.merge rA rB rngC3).pool ≠ (mergeSpecModel rA rB rngC3).pool := by
  have h1 : (Reservoir.merge rA rB rngC3).pool = ["b"] := by
    norm_num [Reservoir.merge, mergeStep, rngF32, rngU32, rA, rB, rngC3, rng0,
      Reservoir.add, Reservoir.new, U32]
  have h2 : (mergeSpecModel rA rB rngC3).pool = ["a"] := by
    norm_num [mergeSpecModel, mergeSpecStep, rngF32, rngU32, rA, rB, rngC3, rng0,
      Reservoir.add, Reservoir.new, U32]
  refine ⟨h1, h2, ?_⟩
  rw [h1, h2]
  simp

/-- The no-fields loop of process_reader under a byte limit processes
exactly the limitClip prefix of its records. -/
lemma procNoFields_clip (L : Nat) (records : List String) : ∀ (rc : Nat) (r : Reservoir String),
    procNoFields (some L) records rc r = procNoFields none (limitClip L rc records) rc r := by
  induction records with
  | nil => intro rc r; rfl
  | cons record rest ih =>
    intro rc r
    by_cases h : rc + record.utf8ByteSize > L
    · simp [procNoFields, limitClip, exceeds, h]
    · have hclip : limitClip L rc (record :: rest)
          = record :: limitClip L (rc + record.utf8ByteSize) rest := by
        simp [limitClip, h]
      rw [hclip]
      simp only [procNoFields, exceeds, h, decide_eq_true_eq, if_neg, if_false]
      exact ih _ _

/-- The fields loop of process_reader under a byte limit processes
exactly the limitClip prefix of its records. -/
lemma procFields_clip (L : Nat) (fields : List Nat) (splitF : String → List String)
    (records : List String) : ∀ (rc : Nat) (st : List (Reservoir String) × List Nat),
    procFields (some L) fields splitF records rc st
      = procFields none fields splitF (limitClip L rc records) rc st := by
  induction records with
  | nil => intro rc st; rfl
  | cons record rest ih =>
    intro rc st
    by_cases h : rc + record.utf8ByteSize > L
    · simp [procFields, limitClip, exceeds, h]
    · have hclip : limitClip L rc (record :: rest)
          = record :: limitClip L (rc + record.utf8ByteSize) rest := by
        simp [limitClip, h]
      rw [hclip]
      simp only [procFields, exceeds, h, decide_eq_true_eq, if_neg, if_false]
      exact ih _ _

/-- C10: a process_reader run limited to L bytes equals the unlimited
run over the limitClip prefix of its records: the cumulative count sums
the byte lengths of the records (terminators already stripped by
lines()), and the first record pushing the count past L is discarded
entirely together with everything after it — it reaches no reservoir
and no missing-field counter. -/
theorem c10_read_limit (records : List String) (L : Nat) (sample_size : Nat)
    (fields : List Nat) (splitF : String → List String) (gs : Nat → Rng) :
    process_reader records (some L) sample_size fields splitF gs
      = process_reader (limitClip L 0 records) none sample_size fields splitF gs := by
  by_cases hf : fields.length = 0
  · simp [process_reader, hf, procNoFields_clip]
  · simp [process_reader, hf, procFields_clip]

/-- Summing a list of rationals all divided by the same constant
equals the sum divided by that constant. -/
lemma sum_map_div {α : Type} (l : List α) (f : α → ℚ) (c : ℚ) :
    (l.map (fun v => f v / c)).sum = (l.map f).sum / c := by
  induction l with
  | nil => simp
  | cons x xs ih => simp [ih, add_div]

/-- C5 (amended): to_histogram returns the empty mapping when the
capacity is 0 (whatever the pool holds) and when the pool is empty;
otherwise it maps each distinct pooled value to its occurrence count
divided by effective_size = min(pool.length as u32, num_seen); and the
frequencies sum to exactly 1 for every reservoir with nonzero capacity,
a non-empty pool, pool.length ≤ num_seen, and pool.length below 2 ^ 32
(the two conditions every reservoir reached by new and fewer than
2 ^ 32 adds satisfies). -/
theorem c5_to_histogram_amended (r : Reservoir String) :
    (r.capacity = 0 → r.to_histogram = []) ∧
    (r.pool = [] → r.to_histogram = []) ∧
    (r.capacity ≠ 0 →
      ∀ (v : String) (q : ℚ),
        ((v, q) ∈ r.to_histogram ↔
          v ∈ r.pool ∧
          q = ((r.pool.count v : Nat) : ℚ)
            / ((min (r.pool.length % U32) r.num_adds : Nat) : ℚ))) ∧
    (r.capacity ≠ 0 → r.pool ≠ [] → r.pool.length ≤ r.num_adds → r.pool.length < U32 →
      (r.to_histogram.map (fun p => p.2)).sum = 1) := by
  refine ⟨?_, ?_, ?_, ?_⟩
  · intro h
    simp [Reservoir.to_histogram, h]
  · intro h
    simp [Reservoir.to_histogram, h]
  · intro hc v q
    rw [Reservoir.to_histogram, if_neg hc]
    simp only [List.mem_map, List.mem_dedup, Prod.mk.injEq]
    constructor
    · rintro ⟨u, hu, hv, hq⟩
      subst hv
      exact ⟨hu, hq.symm⟩
    · rintro ⟨hv, hq⟩
      exact ⟨v, hv, rfl, hq.symm⟩
  · intro hc hne hlen hlt
    rw [Reservoir.to_histogram, if_neg hc]
    have heff : min (r.pool.length % U32) r.num_adds = r.pool.length := by
      rw [Nat.mod_eq_of_lt hlt]
      exact min_eq_left hlen
    rw [heff, List.map_map]
    have hcomp : ((fun (p : String × ℚ) => p.2)
        ∘ (fun v => (v, ((r.pool.count v : Nat) : ℚ) / ((r.pool.length : Nat) : ℚ))))
        = fun v => ((r.pool.count v : Nat) : ℚ) / ((r.pool.length : Nat) : ℚ) := rfl
    rw [hcomp, sum_map_div]
    have hcast : (r.pool.dedup.map (fun v => ((r.pool.count v : Nat) : ℚ))).sum
        = (((r.pool.dedup.map (fun v => r.pool.count v)).sum : Nat) : ℚ) := by
      rw [Nat.cast_list_sum, List.map_map]
      rfl
    rw [hcast, List.sum_map_count_dedup_eq_length]
    apply div_self
    simp only [ne_eq, Nat.cast_eq_zero, List.length_eq_zero]
    exact hne

/-- Witness for C5 on the five-record example reservoir: all four
hypotheses hold and the frequencies sum to exactly 1. -/
theorem c5_witness :
    rEx.capacity ≠ 0 ∧ rEx.pool ≠ [] ∧ rEx.pool.length ≤ rEx.num_adds ∧
    rEx.pool.length < U32 ∧ (rEx.to_histogram.map (fun p => p.2)).sum = 1 :=
  ⟨by decide, by decide, by decide, by decide,
   (c5_to_histogram_amended rEx).2.2.2 (by decide) (by decide) (by decide) (by decide)⟩

/-- Counterexample to C5 as stated: a reachable capacity-0 reservoir
holding one item has a non-empty pool, yet its histogram is the empty
mapping, whose frequencies sum to 0, not 1; and the Reservoir value
rOver, whose pool is longer than its num_seen count, has frequencies
summing to 2. -/
theorem c5_counterexample :
    (Reachable ((Reservoir.new 0 rng0 : Reservoir String).add "a") ∧
     ((Reservoir.new 0 rng0 : Reservoir String).add "a").pool ≠ [] ∧
     ((Reservoir.new 0 rng0 : Reservoir String).add "a").to_histogram = [] ∧
     ((((Reservoir.new 0 rng0 : Reservoir String).add "a").to_histogram.map
        (fun p => p.2)).sum = 0)) ∧
    (rOver.pool ≠ [] ∧ (rOver.to_histogram.map (fun p => p.2)).sum = 2) := by
  have h0 : ((Reservoir.new 0 rng0 : Reservoir String).add "a").to_histogram = [] := by
    rw [Reservoir.to_histogram, if_pos]
    rfl
  have hd : (["a", "b"] : List String).dedup = ["a", "b"] := by decide
  have hca : (["a", "b"] : List String).count "a" = 1 := by decide
  have hcb : (["a", "b"] : List String).count "b" = 1 := by decide
  refine ⟨⟨Reachable.add _ "a" (Reachable.new 0 rng0), by decide, h0, ?_⟩, by decide, ?_⟩
  · rw [h0]
    simp
  · rw [show rOver.to_histogram
        = rOver.pool.dedup.map (fun v => (v, ((rOver.pool.count v : Nat) : ℚ)
            / ((min (rOver.pool.length % U32) rOver.num_adds : Nat) : ℚ)))
      from by rw [Reservoir.to_histogram, if_neg (by decide)]]
    show ((((["a", "b"] : List String).dedup).map
      (fun v => (v, (((["a", "b"] : List String).count v : Nat) : ℚ)
        / ((min ((["a", "b"] : List String).length % U32) 1 : Nat) : ℚ)))).map
      (fun p => p.2)).sum = 2
    rw [hd]
    simp [hca, hcb, U32]
    norm_num

/-- A read_line from a position strictly inside the content advances by
at least one byte and never passes the end. -/
lemma lineEnd_bounds (content : List Nat) (pos : Nat) (h : pos < content.length) :
    pos < lineEnd content pos ∧ lineEnd content pos ≤ content.length := by
  unfold lineEnd
  refine ⟨lt_min (by omega) h, min_le_right _ _⟩

/-- The get_splits loop emits ranges that tile [start, L) exactly,
provided the fuel exceeds the remaining byte count. -/
lemma splitsLoop_tilesFrom (content : List Nat) (s : Nat) : ∀ (fuel start : Nat),
    start ≤ content.length → content.length - start < fuel →
    tilesFrom content.length (splitsLoop content s fuel start) start := by
  intro fuel
  induction fuel with
  | zero => intro start h1 h2; omega
  | succ fuel ih =>
    intro start h1 h2
    simp only [splitsLoop]
    by_cases he : min (start + s) content.length = content.length
    · rw [if_pos he]
      exact ⟨rfl, h1, rfl⟩
    · rw [if_neg he]
      have hlt : min (start + s) content.length < content.length :=
        lt_of_le_of_ne (min_le_right _ _) he
      have hse : start ≤ min (start + s) content.length := le_min (by omega) h1
      obtain ⟨hgt, hle⟩ := lineEnd_bounds content (min (start + s) content.length) hlt
      refine ⟨rfl, by omega, ?_⟩
      exact ih _ hle (by omega)

/-- When the chunk size covers the whole content, the loop emits the
single range from 0 to the end. -/
lemma splitsLoop_single (content : List Nat) (s : Nat) (h : content.length ≤ s)
    (fuel : Nat) (hf : 0 < fuel) :
    splitsLoop content s fuel 0 = [(0, content.length)] := by
  cases fuel with
  | zero => omega
  | succ fuel =>
    simp only [splitsLoop]
    rw [if_pos]
    exact min_eq_right (by omega)

/-- The loop always emits at least one range. -/
lemma splitsLoop_ne_nil (content : List Nat) (s : Nat) (fuel start : Nat) (hf : 0 < fuel) :
    splitsLoop content s fuel start ≠ [] := by
  cases fuel with
  | zero => omega
  | succ fuel =>
    simp only [splitsLoop]
    split_ifs <;> simp

/-- C6 (amended): for every byte source and every chunk size below
2 ^ 63, the returned ranges are ordered, contiguous half-open intervals
exactly partitioning [0, length) with no gaps or overlaps; when the
chunk size also reaches the source length the result is the single
range [0, length) (so an empty source yields one empty range).  For
chunk sizes of 2 ^ 63 and above, the u64 to i64 cast turns the first
relative seek negative and get_splits returns an io error instead. -/
theorem c6_get_splits_amended (content : List Nat) (split_size : Nat) :
    (split_size < 2 ^ 63 →
      tiles ((get_splits content split_size).getD []) content.length ∧
      (content.length ≤ split_size →
        (get_splits content split_size).getD [] = [(0, content.length)])) ∧
    (2 ^ 63 ≤ split_size → get_splits content split_size = none) := by
  refine ⟨fun hs => ⟨?_, fun hls => ?_⟩, fun hs => ?_⟩
  · rw [get_splits, if_pos hs, Option.getD_some]
    exact ⟨splitsLoop_ne_nil content split_size _ 0 (by omega),
           splitsLoop_tilesFrom content split_size _ 0 (by omega) (by omega)⟩
  · rw [get_splits, if_pos hs, Option.getD_some]
    exact splitsLoop_single content split_size hls _ (by omega)
  · rw [get_splits, if_neg (by omega)]

/-- Witness for C6 on the four-byte source ab, newline, c with chunk
size 2: the two returned ranges tile [0, 4). -/
theorem c6_witness :
    (2 : Nat) < 2 ^ 63 ∧
    get_splits [97, 98, 10, 99] 2 = some [(0, 3), (3, 4)] ∧
    tiles ((get_splits [97, 98, 10, 99] 2).getD []) ([97, 98, 10, 99] : List Nat).length :=
  ⟨by decide, by decide, ((c6_get_splits_amended [97, 98, 10, 99] 2).1 (by decide)).1⟩

/-- Counterexample to C6 as stated: on the empty source with chunk size
2 ^ 63 (at least the source length, as the claim requires), get_splits
propagates the io error of the negative relative seek instead of
returning the single empty range. -/
theorem c6_counterexample :
    ([] : List Nat).length ≤ 2 ^ 63 ∧
    get_splits [] (2 ^ 63) = none ∧
    get_splits [] (2 ^ 63) ≠ some [(0, 0)] := by
  refine ⟨by decide, by decide, by decide⟩

/-- An in-bounds optional lookup is the getD value. -/
lemma getElem?_eq_some_getD {α : Type} (l : List α) (i : Nat) (d : α) (h : i < l.length) :
    l[i]? = some (l.getD i d) := by
  rw [List.getElem?_eq_getElem h, List.getD_eq_getElem l d h]

/-- The inner field loop never touches indices below its starting
enumeration index. -/
lemma enumFoldl_untouched (vals : List String) : ∀ (fs : List Nat) (k : Nat)
    (st : List (Reservoir String) × List Nat) (j : Nat), j < k →
    (((List.enumFrom k fs).foldl (stepOne vals) st).1[j]? = st.1[j]? ∧
     ((List.enumFrom k fs).foldl (stepOne vals) st).2[j]? = st.2[j]?) := by
  intro fs
  induction fs with
  | nil => intro k st j hj; exact ⟨rfl, rfl⟩
  | cons f fs ih =>
    intro k st j hj
    rw [List.enumFrom_cons, List.foldl_cons]
    obtain ⟨h1, h2⟩ := ih (k + 1) (stepOne vals st (k, f)) j (by omega)
    refine ⟨h1.trans ?_, h2.trans ?_⟩
    · simp only [stepOne]
      split_ifs with hf
      · rfl
      · exact List.getElem?_set_ne (by omega)
    · simp only [stepOne]
      split_ifs with hf
      · exact List.getElem?_set_ne (by omega)
      · rfl

/-- What the inner field loop does at tracked position m: it bumps that
missing counter when the record has too few fields, and otherwise adds
the field text to that reservoir; the other list is untouched at that
position. -/
lemma enumFoldl_at (vals : List String) : ∀ (fs : List Nat) (m k : Nat)
    (st : List (Reservoir String) × List Nat),
    m < fs.length → k + fs.length ≤ st.1.length → k + fs.length ≤ st.2.length →
    (((List.enumFrom k fs).foldl (stepOne vals) st).1[k + m]?
        = some (if vals.length ≤ fs.getD m 0
            then st.1.getD (k + m) dR
            else (st.1.getD (k + m) dR).add (vals.getD (fs.getD m 0) "")) ∧
     ((List.enumFrom k fs).foldl (stepOne vals) st).2[k + m]?
        = some (if vals.length ≤ fs.getD m 0
            then st.2.getD (k + m) 0 + 1
            else st.2.getD (k + m) 0)) := by
  intro fs
  induction fs with
  | nil =>
    intro m k st hm
    simp at hm
  | cons f fs ih =>
    intro m k st hm h1 h2
    rw [List.enumFrom_cons, List.foldl_cons]
    simp only [List.length_cons] at h1 h2
    cases m with
    | zero =>
      obtain ⟨u1, u2⟩ := enumFoldl_untouched vals fs (k + 1)
        (stepOne vals st (k, f)) k (by omega)
      have hgd : (f :: fs).getD 0 0 = f := rfl
      simp only [Nat.add_zero, hgd]
      refine ⟨u1.trans ?_, u2.trans ?_⟩
      · simp only [stepOne]
        split_ifs with hf
        · exact getElem?_eq_some_getD st.1 k dR (by omega)
        · exact List.getElem?_set_eq_of_lt _ (by omega)
      · simp only [stepOne]
        split_ifs with hf
        · exact List.getElem?_set_eq_of_lt _ (by omega)
        · exact getElem?_eq_some_getD st.2 k 0 (by omega)
    | succ m =>
      have hs1 : (stepOne vals st (k, f)).1.length = st.1.length := by
        simp only [stepOne]
        split_ifs <;> simp
      have hs2 : (stepOne vals st (k, f)).2.length = st.2.length := by
        simp only [stepOne]
        split_ifs <;> simp
      have hg1 : (stepOne vals st (k, f)).1.getD (k + 1 + m) dR
          = st.1.getD (k + 1 + m) dR := by
        rw [List.getD_eq_getElem?_getD, List.getD_eq_getElem?_getD]
        congr 1
        simp only [stepOne]
        split_ifs
        · rfl
        · exact List.getElem?_set_ne (by omega)
      have hg2 : (stepOne vals st (k, f)).2.getD (k + 1 + m) 0
          = st.2.getD (k + 1 + m) 0 := by
        rw [List.getD_eq_getElem?_getD, List.getD_eq_getElem?_getD]
        congr 1
        simp only [stepOne]
        split_ifs
        · exact List.getElem?_set_ne (by omega)
        · rfl
      obtain ⟨g1, g2⟩ := ih m (k + 1) (stepOne vals st (k, f))
        (by simpa using Nat.lt_of_succ_lt_succ (by simpa using hm))
        (by rw [hs1]; omega) (by rw [hs2]; omega)
      have hidx : k + (m + 1) = k + 1 + m := by omega
      have hfd : (f :: fs).getD (m + 1) 0 = fs.getD m 0 := rfl
      rw [hidx, hfd]
      rw [hg1] at g1
      rw [hg2] at g2
      exact ⟨g1, g2⟩

/-- C7: when field indices are requested, a record with fewer fields
than the tracked index at position i is not an error: that missing
counter is incremented by exactly one and that reservoir is left
unchanged, while every tracked index the record does cover still feeds
its reservoir; and the record loop then continues with the remaining
records whenever the byte limit is not exceeded. -/
theorem c7_missing_field_handling (fields : List Nat) (splitF : String → List String)
    (vals : List String) (rs : List (Reservoir String)) (ms : List Nat) (i : Nat)
    (hi : i < fields.length) (hrs : rs.length = fields.length)
    (hms : ms.length = fields.length) :
    (vals.length ≤ fields.getD i 0 →
      (stepFields fields vals (rs, ms)).2[i]? = some (ms.getD i 0 + 1) ∧
      (stepFields fields vals (rs, ms)).1[i]? = rs[i]?) ∧
    (fields.getD i 0 < vals.length →
      (stepFields fields vals (rs, ms)).1[i]?
        = some ((rs.getD i dR).add (vals.getD (fields.getD i 0) "")) ∧
      (stepFields fields vals (rs, ms)).2[i]? = ms[i]?) ∧
    (∀ (read_limit : Option Nat) (record : String) (rest : List String) (rc : Nat)
        (st : List (Reservoir String) × List Nat),
      exceeds read_limit (rc + record.utf8ByteSize) = false →
      procFields read_limit fields splitF (record :: rest) rc st
        = procFields read_limit fields splitF rest (rc + record.utf8ByteSize)
            (stepFields fields (splitF record) st)) := by
  obtain ⟨g1, g2⟩ := enumFoldl_at vals fields i 0 (rs, ms) hi
    (by simp [hrs]) (by simp [hms])
  simp only [Nat.zero_add] at g1 g2
  have hsf : stepFields fields vals (rs, ms)
      = (List.enumFrom 0 fields).foldl (stepOne vals) (rs, ms) := rfl
  refine ⟨fun hvf => ⟨?_, ?_⟩, fun hvf => ⟨?_, ?_⟩,
          fun rl record rest rc st hex => ?_⟩
  · rw [hsf, g2, if_pos hvf]
  · rw [hsf, g1, if_pos hvf]
    exact (getElem?_eq_some_getD rs i dR (by omega)).symm
  · rw [hsf, g1, if_neg (by omega)]
  · rw [hsf, g2, if_neg (by omega)]
    exact (getElem?_eq_some_getD ms i 0 (by omega)).symm
  · simp [procFields, hex]

/-- Witness for C7: two tracked field indices 0 and 5 on a two-field
record; the second tracked field is missing, its counter goes from 0 to
1 and its reservoir entry is untouched. -/
theorem c7_witness :
    (1 : Nat) < ([0, 5] : List Nat).length ∧
    (["x", "y"] : List String).length ≤ ([0, 5] : List Nat).getD 1 0 ∧
    (stepFields [0, 5] ["x", "y"] ([dR, dR], [0, 0])).2[1]? = some 1 ∧
    (stepFields [0, 5] ["x", "y"] ([dR, dR], [0, 0])).1[1]?
      = ([dR, dR] : List (Reservoir String))[1]? :=
  ⟨by decide, by decide,
   ((c7_missing_field_handling [0, 5] (fun s => [s]) ["x", "y"] [dR, dR] [0, 0] 1
      (by decide) (by decide) (by decide)).1 (by decide)).1,
   ((c7_missing_field_handling [0, 5] (fun s => [s]) ["x", "y"] [dR, dR] [0, 0] 1
      (by decide) (by decide) (by decide)).1 (by decide)).2⟩

/-- Byte-lexicographic comparison is total. -/
lemma charListLe_total : ∀ (a b : List Char),
    charListLe a b = true ∨ charListLe b a = true := by
  intro a
  induction a with
  | nil => intro b; left; rfl
  | cons x xs ih =>
    intro b
    cases b with
    | nil => right; rfl
    | cons y ys =>
      rcases lt_trichotomy x y with h | h | h
      · left
        simp [charListLe, h]
      · subst h
        have hx : ¬(x < x) := lt_irrefl x
        rcases ih ys with h2 | h2
        · left
          simp [charListLe, hx, h2]
        · right
          simp [charListLe, hx, h2]
      · right
        simp [charListLe, h]

/-- Byte-lexicographic comparison is transitive. -/
lemma charListLe_trans : ∀ (a b c : List Char),
    charListLe a b = true → charListLe b c = true → charListLe a c = true := by
  intro a
  induction a with
  | nil => intro b c _ _; rfl
  | cons x xs ih =>
    intro b c h1 h2
    cases b with
    | nil => simp [charListLe] at h1
    | cons y ys =>
      cases c with
      | nil => simp [charListLe] at h2
      | cons z zs =>
        by_cases hxy : x < y
        · by_cases hyz : y < z
          · simp [charListLe, lt_trans hxy hyz]
          · by_cases hzy : z < y
            · simp [charListLe, hyz, hzy] at h2
            · have hyz2 : y = z := le_antisymm (not_lt.mp hzy) (not_lt.mp hyz)
              subst hyz2
              simp [charListLe, hxy]
        · by_cases hyx : y < x
          · simp [charListLe, hxy, hyx] at h1
          · have hxy2 : x = y := le_antisymm (not_lt.mp hyx) (not_lt.mp hxy)
            subst hxy2
            have hx : ¬(x < x) := lt_irrefl x
            have h1b : charListLe xs ys = true := by
              simpa [charListLe, hx] using h1
            by_cases hxz : x < z
            · simp [charListLe, hxz]
            · by_cases hzx : z < x
              · simp [charListLe, hxz, hzx] at h2
              · have hxz2 : x = z := le_antisymm (not_lt.mp hzx) (not_lt.mp hxz)
                subst hxz2
                have h2b : charListLe ys zs = true := by
                  simpa [charListLe, hx] using h2
                simpa [charListLe, hx] using ih ys zs h1b h2b

instance : IsTotal (ℚ × String) leKey where
  total := by
    intro a b
    rcases lt_trichotomy a.1 b.1 with h | h | h
    · exact Or.inl (Or.inl h)
    · rcases charListLe_total a.2.data b.2.data with h2 | h2
      · exact Or.inl (Or.inr ⟨h, h2⟩)
      · exact Or.inr (Or.inr ⟨h.symm, h2⟩)
    · exact Or.inr (Or.inl h)

instance : IsTrans (ℚ × String) leKey where
  trans := by
    intro a b c h1 h2
    rcases h1 with h1 | ⟨h1e, h1l⟩
    · rcases h2 with h2 | ⟨h2e, _⟩
      · exact Or.inl (lt_trans h1 h2)
      · exact Or.inl (h2e ▸ h1)
    · rcases h2 with h2 | ⟨h2e, h2l⟩
      · exact Or.inl (h1e ▸ h2)
      · exact Or.inr ⟨h1e.trans h2e, charListLe_trans _ _ _ h1l h2l⟩

/-- C2 (amended): histogram_top_k returns the min(k, distinct-values)
highest entries of the histogram, sorted by descending frequency; on
equal frequencies the order is the DESCENDING natural (byte-wise)
order of the values, not ascending: every returned entry dominates (in
the (frequency, value) order leKey) every histogram entry left out,
every returned entry is a histogram entry, and when fewer than k
distinct values exist all of them are returned. -/
theorem c2_top_k_amended (r : Reservoir String) (k : Nat) :
    (histogram_top_k r k).length = min k r.to_histogram.length ∧
    (histogram_top_k r k).Pairwise (fun a b => leKey (b.2, b.1) (a.2, a.1)) ∧
    (∀ p ∈ histogram_top_k r k, p ∈ r.to_histogram) ∧
    (∀ p ∈ r.to_histogram, p ∉ histogram_top_k r k →
      ∀ q ∈ histogram_top_k r k, leKey (p.2, p.1) (q.2, q.1)) ∧
    (r.to_histogram.length ≤ k → ∀ p, p ∈ histogram_top_k r k ↔ p ∈ r.to_histogram) := by
  have htk : histogram_top_k r k
      = (((r.to_histogram.map (fun p => (p.2, p.1))).insertionSort leKey).reverse.take
          (min k ((r.to_histogram.map (fun p => (p.2, p.1))).insertionSort
            leKey).reverse.length)).map (fun p => (p.2, p.1)) := rfl
  have hlen_rev : ((r.to_histogram.map (fun p => (p.2, p.1))).insertionSort
      leKey).reverse.length = r.to_histogram.length := by
    rw [List.length_reverse, (List.perm_insertionSort leKey _).length_eq,
      List.length_map]
  have hperm : List.Perm
      ((r.to_histogram.map (fun p => (p.2, p.1))).insertionSort leKey).reverse
      (r.to_histogram.map (fun p => (p.2, p.1))) :=
    (List.reverse_perm _).trans (List.perm_insertionSort leKey _)
  have hrevp : (((r.to_histogram.map (fun p => (p.2, p.1))).insertionSort
      leKey).reverse).Pairwise (fun a b => leKey b a) := by
    rw [List.pairwise_reverse]
    exact List.sorted_insertionSort leKey _
  have hsub : ∀ p ∈ histogram_top_k r k, p ∈ r.to_histogram := by
    intro p hp
    rw [htk] at hp
    obtain ⟨q, hq, hfq⟩ := List.mem_map.mp hp
    have hq2 : q ∈ r.to_histogram.map (fun p => (p.2, p.1)) :=
      hperm.mem_iff.mp (List.take_subset _ _ hq)
    obtain ⟨e, he, hfe⟩ := List.mem_map.mp hq2
    rw [← hfq, ← hfe]
    exact he
  refine ⟨?_, ?_, hsub, ?_, ?_⟩
  · rw [htk, List.length_map, List.length_take, hlen_rev, min_assoc, min_self]
  · rw [htk]
    refine List.pairwise_map.mpr ?_
    exact (hrevp.sublist (List.take_sublist _ _)).imp (fun h => h)
  · intro p hp hnp q hq
    rw [htk] at hq
    obtain ⟨q', hq', hfq⟩ := List.mem_map.mp hq
    have hpv : (p.2, p.1) ∈ ((r.to_histogram.map
        (fun p => (p.2, p.1))).insertionSort leKey).reverse :=
      hperm.mem_iff.mpr (List.mem_map.mpr ⟨p, hp, rfl⟩)
    have hnt : (p.2, p.1) ∉ (((r.to_histogram.map
        (fun p => (p.2, p.1))).insertionSort leKey).reverse).take
          (min k ((r.to_histogram.map (fun p => (p.2, p.1))).insertionSort
            leKey).reverse.length) := by
      intro hmem
      apply hnp
      rw [htk]
      exact List.mem_map.mpr ⟨(p.2, p.1), hmem, rfl⟩
    have hsplit := (List.take_append_drop
      (min k ((r.to_histogram.map (fun p => (p.2, p.1))).insertionSort
        leKey).reverse.length)
      (((r.to_histogram.map (fun p => (p.2, p.1))).insertionSort leKey).reverse)).symm
    have hin_drop : (p.2, p.1) ∈ (((r.to_histogram.map
        (fun p => (p.2, p.1))).insertionSort leKey).reverse).drop
          (min k ((r.to_histogram.map (fun p => (p.2, p.1))).insertionSort
            leKey).reverse.length) := by
      rcases List.mem_append.mp (hsplit ▸ hpv) with h | h
      · exact absurd h hnt
      · exact h
    have hpair := hrevp
    rw [hsplit] at hpair
    have hrel := (List.pairwise_append.mp hpair).2.2 q' hq' (p.2, p.1) hin_drop
    rw [← hfq]
    exact hrel
  · intro hlk p
    have hmin : min k ((r.to_histogram.map (fun p => (p.2, p.1))).insertionSort
        leKey).reverse.length
        = ((r.to_histogram.map (fun p => (p.2, p.1))).insertionSort
            leKey).reverse.length := by
      rw [hlen_rev]
      exact min_eq_right hlk
    constructor
    · exact hsub p
    · intro hph
      rw [htk, hmin, List.take_length]
      have hpv : (p.2, p.1) ∈ ((r.to_histogram.map
          (fun p => (p.2, p.1))).insertionSort leKey).reverse :=
        hperm.mem_iff.mpr (List.mem_map.mpr ⟨p, hph, rfl⟩)
      exact List.mem_map.mpr ⟨(p.2, p.1), hpv, rfl⟩

/-- Witness for C2 on the end-to-end example reservoir with k = 3: the
histogram has exactly 3 distinct values, all of which are returned. -/
theorem c2_witness :
    rEx.to_histogram.length ≤ 3 ∧
    (histogram_top_k rEx 3).length = min 3 rEx.to_histogram.length ∧
    (∀ p, p ∈ histogram_top_k rEx 3 ↔ p ∈ rEx.to_histogram) := by
  have hlen3 : rEx.to_histogram.length = 3 := by
    simp only [Reservoir.to_histogram, if_neg (show ¬rEx.capacity = 0 by decide)]
    rw [List.length_map]
    decide
  exact ⟨by rw [hlen3],
         (c2_top_k_amended rEx 3).1,
         (c2_top_k_amended rEx 3).2.2.2.2 (by rw [hlen3])⟩

/-- Counterexample to C2 as stated: on the spec end-to-end example
(records a, b, a, c, a into capacity 10, top 3) the returned list is
a, c, b — the two tied entries c and b (frequency 1/5 each) appear in
DESCENDING value order because the source sorts ascending and then
reverses the whole list, while the claim requires b before c. -/
theorem c2_counterexample :
    Reachable rEx ∧
    histogram_top_k rEx 3 = [("a", 3/5), ("c", 1/5), ("b", 1/5)] ∧
    charListLe "b".data "c".data = true ∧
    charListLe "c".data "b".data = false := by
  have hded : rEx.pool.dedup = ["b", "c", "a"] := by decide
  have hca : rEx.pool.count "a" = 3 := by decide
  have hcb : rEx.pool.count "b" = 1 := by decide
  have hcc : rEx.pool.count "c" = 1 := by decide
  have heff : min (rEx.pool.length % U32) rEx.num_adds = 5 := by decide
  have hh : rEx.to_histogram = [("b", 1/5), ("c", 1/5), ("a", 3/5)] := by
    simp only [Reservoir.to_histogram, if_neg (show ¬rEx.capacity = 0 by decide)]
    rw [hded]
    simp only [List.map_cons, List.map_nil, hca, hcb, hcc, heff]
    norm_num
  have hvals : rEx.to_histogram.map (fun p => (p.2, p.1))
      = [(1/5, "b"), (1/5, "c"), (3/5, "a")] := by
    rw [hh]
    rfl
  have hs1 : List.orderedInsert leKey ((1 : ℚ)/5, "c") [((3 : ℚ)/5, "a")]
      = [((1 : ℚ)/5, "c"), ((3 : ℚ)/5, "a")] := by
    simp only [List.orderedInsert]
    rw [if_pos]
    exact Or.inl (by norm_num)
  have hs2 : List.orderedInsert leKey ((1 : ℚ)/5, "b")
      [((1 : ℚ)/5, "c"), ((3 : ℚ)/5, "a")]
      = [((1 : ℚ)/5, "b"), ((1 : ℚ)/5, "c"), ((3 : ℚ)/5, "a")] := by
    simp only [List.orderedInsert]
    rw [if_pos]
    exact Or.inr ⟨rfl, by decide⟩
  have hsort : (rEx.to_histogram.map (fun p => (p.2, p.1))).insertionSort leKey
      = [((1 : ℚ)/5, "b"), ((1 : ℚ)/5, "c"), ((3 : ℚ)/5, "a")] := by
    rw [hvals]
    simp only [List.insertionSort]
    rw [show List.orderedInsert leKey ((3 : ℚ)/5, "a") [] = [((3 : ℚ)/5, "a")] from rfl,
      hs1, hs2]
  have htk : histogram_top_k rEx 3
      = (((rEx.to_histogram.map (fun p => (p.2, p.1))).insertionSort leKey).reverse.take
          (min 3 ((rEx.to_histogram.map (fun p => (p.2, p.1))).insertionSort
            leKey).reverse.length)).map (fun p => (p.2, p.1)) := rfl
  refine ⟨reach_addList _ _ (Reachable.new 10 rng0), ?_, by decide, by decide⟩
  rw [htk, hsort]
  rfl
